import Mathlib

/-
Verification of the `System` utility module (Source/system.cpp) of
PbrtSceneConverter: deduplicating diagnostics log, path-string
normalization, output-directory management and the global axis-swap
transform.  C++ strings are embedded as `List Char` for the path
functions and as `String` for diagnostic message texts; the global
mutable state is passed explicitly through a `SysState` record.
-/

namespace PbrtConv

/-! ## Diagnostics log (system.cpp lines 17-19, 49-62, 126-168, 170-183) -/

/-- One shared record of global logging state: `s_warnings`, `s_errors`,
`s_infos` (lists of (text, occurrence count)), the `argSilent` flag and
the output directory `s_outDir` (held as a character list). -/
structure SysState where
  warnings : List (String × Nat)
  errors : List (String × Nat)
  infos : List (String × Nat)
  argSilent : Bool
  outDir : List Char
deriving Repr, DecidableEq

/-- `addMessage` (system.cpp 49-62): linear scan for `msg`; when found the
count is incremented and the message is displayed only while the new count
is still `< 10`; otherwise the message is appended with count 1 and
displayed.  Returns (shouldDisplay, updated list). -/
def addMessage : List (String × Nat) → String → Bool × List (String × Nat)
  | [], msg => (true, [(msg, 1)])
  | e :: rest, msg =>
    if e.1 = msg then
      (decide (e.2 + 1 < 10), (e.1, e.2 + 1) :: rest)
    else
      let r := addMessage rest msg
      (r.1, e :: r.2)

/-- `System::warning` (system.cpp 126-132): a line is written to the
console iff `addMessage` says display and the silent flag is unset.
Returns (lineDisplayed, new state). -/
def warning (st : SysState) (txt : String) : Bool × SysState :=
  let r := addMessage st.warnings txt
  (r.1 && !st.argSilent, { st with warnings := r.2 })

/-- `System::error` (system.cpp 160-168): the `addMessage` result is
discarded and the `ERROR:` line is printed unconditionally (the silent
flag is never consulted). -/
def error (st : SysState) (txt : String) : Bool × SysState :=
  let r := addMessage st.errors txt
  (true, { st with errors := r.2 })

/-- `displayStrings` (system.cpp 170-183): the list of lines printed by a
summary dump: nothing when the total count is zero, otherwise a header
`NAME (total):` followed by one `(count) text` line per record. -/
def displayStrings (vec : List (String × Nat)) (name : String) : List String :=
  let count := vec.foldl (fun acc e => acc + e.2) 0
  if count ≠ 0 then
    (name ++ " (" ++ toString count ++ "):") ::
      vec.map (fun e => "(" ++ toString e.2 ++ ") " ++ e.1)
  else []

/-- `n` consecutive calls `System::warning(txt)`; returns the number of
console lines produced together with the final state. -/
def iterWarning (st : SysState) (txt : String) : Nat → Nat × SysState
  | 0 => (0, st)
  | n + 1 =>
    let r := warning st txt
    let rest := iterWarning r.2 txt n
    ((if r.1 then 1 else 0) + rest.1, rest.2)

/-- `n` consecutive calls `System::error(txt)`; returns the number of
console lines produced together with the final state. -/
def iterError (st : SysState) (txt : String) : Nat → Nat × SysState
  | 0 => (0, st)
  | n + 1 =>
    let r := error st txt
    let rest := iterError r.2 txt n
    ((if r.1 then 1 else 0) + rest.1, rest.2)

/-! ## Path utilities (system.cpp 64-124) -/

/-- The platform separator the source normalizes to: a backslash. -/
def bslash : Char := '\\'

/-- Embedding of `std::string::find(pat)` succeeding at a position:
`pat` matches at the front of `s`. -/
def startsWith : List Char → List Char → Bool
  | [], _ => true
  | _ :: _, [] => false
  | p :: ps, c :: cs => decide (p = c) && startsWith ps cs

/-- `s.find(pat)` (std::string::find): index of the first occurrence of
`pat` in `s`, or `none` for `npos`. -/
def strFind : List Char → List Char → Option Nat
  | [], pat => if startsWith pat [] then some 0 else none
  | c :: rest, pat =>
    if startsWith pat (c :: rest) then some 0
    else (strFind rest pat).map (· + 1)

/-- `s.find_last_of(c)` (std::string::find_last_of with a single-char
set): index of the last occurrence of `c`, or `none` for `npos`. -/
def findLastIdx : List Char → Char → Option Nat
  | [], _ => none
  | a :: rest, c =>
    match findLastIdx rest c with
    | some i => some (i + 1)
    | none => if a = c then some 0 else none

/-- The backwards scan of `System::fixPath` (system.cpp 86):
`while (p > 0 && s.at(p) != '\\') p--`. -/
def scroll (s : List Char) : Nat → Nat
  | 0 => 0
  | q + 1 => if s.get? (q + 1) = some bslash then q + 1 else scroll s q

/-- Lines 84-86 of system.cpp: `if (p > 0) p--;` followed by the
backwards scan for the previous separator. -/
def scrollBack (s : List Char) (p : Nat) : Nat :=
  if p = 0 then 0 else scroll s (p - 1)

/-- The pattern `"\\\\"` (two backslashes) searched by the
double-separator removal loop. -/
def dblPat : List Char := [bslash, bslash]

/-- The pattern `"\\..\\"` searched by the parent-reference collapsing
loop. -/
def dotsPat : List Char := [bslash, '.', '.', bslash]

/-- The double-separator removal loop of `System::fixPath`
(system.cpp 72-76): find `"\\\\"`, drop the character at the found
position, repeat.  Structured with explicit fuel; each iteration shortens
the string by one, so `s.length` fuel always suffices. -/
def removeDoublesGo : Nat → List Char → List Char
  | 0, s => s
  | fuel + 1, s =>
    match strFind s dblPat with
    | none => s
    | some p => removeDoublesGo fuel (s.take p ++ s.drop (p + 1))

/-- The double-separator removal loop run to completion. -/
def removeDoubles (s : List Char) : List Char := removeDoublesGo s.length s

/-- The parent-reference collapsing loop of `System::fixPath`
(system.cpp 80-89): find `"\\..\\"` at `p`, set `end = p + 3`, scroll
back to the previous separator, and keep `s[0,p') ++ s[end,len)`.
Each iteration removes at least three characters, so `s.length` fuel
always suffices. -/
def collapseDotsGo : Nat → List Char → List Char
  | 0, s => s
  | fuel + 1, s =>
    match strFind s dotsPat with
    | none => s
    | some p => collapseDotsGo fuel (s.take (scrollBack s p) ++ s.drop (p + 3))

/-- The parent-reference collapsing loop run to completion. -/
def collapseDots (s : List Char) : List Char := collapseDotsGo s.length s

/-- First phase of `System::fixPath` (system.cpp 67-69): every forward
slash becomes a backslash. -/
def toBackslashes (s : List Char) : List Char :=
  s.map (fun c => if c = '/' then bslash else c)

/-- `System::fixPath` (system.cpp 64-92): slash normalization, then
double-separator removal, then parent-reference collapsing. -/
def fixPath (s : List Char) : List Char :=
  collapseDots (removeDoubles (toBackslashes s))

/-- `System::removeFileEnding` (system.cpp 94-100): truncate at the last
dot (exclusive); a string without a dot is returned unchanged. -/
def removeFileEnding (s : List Char) : List Char :=
  match findLastIdx s '.' with
  | some pos => s.take pos
  | none => s

/-- `System::getFileDirectory` (system.cpp 102-115): keep everything up
to and including the last backslash; failing that, up to and including
the last forward slash; failing that, the string is returned unchanged. -/
def getFileDirectory (s : List Char) : List Char :=
  match findLastIdx s bslash with
  | some pos => s.take (pos + 1)
  | none =>
    match findLastIdx s '/' with
    | some pos => s.take (pos + 1)
    | none => s

/-! ## Output directory (system.cpp 15, 219-238) -/

/-- `System::setOutputDirectory` (system.cpp 219-233): `s_outDir` is
overwritten with `getFileDirectory(dir)` *before* the writability probe.
The probe (creating and removing a `tmp` file inside `dir`) is a
filesystem effect, embedded as the boolean parameter `probeOk`.  On a
failed probe an error is recorded via `System::error` and a
`std::runtime_error` is thrown; the returned boolean is `false` exactly
when the call throws. -/
def setOutputDirectory (st : SysState) (dir : String) (probeOk : Bool) :
    Bool × SysState :=
  let st1 := { st with outDir := getFileDirectory dir.toList }
  if probeOk then (true, st1)
  else
    let r := error st1 ("cannot write in output directory " ++ dir)
    (false, r.2)

/-- `System::getOutputDirectory` (system.cpp 235-238). -/
def getOutputDirectory (st : SysState) : List Char := st.outDir

/-! ## Throttled runtime info (system.cpp 146-158) -/

/-- `System::runtimeInfoSpam` (system.cpp 146-158).  The function-local
`static auto last = now()` is embedded as an `Option Nat` timestamp that
is `none` until the statement first executes; on that first execution it
is initialized to the current call's clock value, and the elapsed-time
test `now - last > 200` is then performed against that same value.
Returns (lineDisplayed, new timestamp state) for a call at clock `now`
(milliseconds). -/
def runtimeInfoSpam (argSilent : Bool) (last : Option Nat) (now : Nat) :
    Bool × Option Nat :=
  if argSilent then (false, last)
  else
    match last with
    | none =>
      let l := now
      if now - l > 200 then (true, some now) else (false, some l)
    | some l =>
      if now - l > 200 then (true, some now) else (false, some l)

/-! ## Axis swap transform (system.cpp 20, 240-262)

`ei::Mat4x4` (a float 4x4 matrix from the external `ei` math library) is
not part of this repository's sources.  Modelled from the spec: a plain
4x4 matrix; `ei::identity4x4()` is the identity matrix, `applySwap`
"builds an identity matrix, swaps its two basis row-vectors at positions
axisA and axisB, and right-multiplies", and composition is ordinary
matrix multiplication.  All entries reachable here lie in {0, 1, -1},
where float arithmetic is exact, so entries are embedded as integers. -/

/-- The 4x4 matrix type standing for `ei::Mat4x4`. -/
abbrev Mat4 := Matrix (Fin 4) (Fin 4) ℤ

instance : DecidableEq Mat4 :=
  inferInstanceAs (DecidableEq (Fin 4 → Fin 4 → ℤ))

/-- `ei::identity4x4()`. -/
def identity4x4 : Mat4 := 1

/-- `std::swap(swapMat(a1), swapMat(a2))` applied to rows: the matrix
`m` with rows `a` and `b` exchanged (system.cpp 248-249). -/
def swapRows (m : Mat4) (a b : Fin 4) : Mat4 :=
  fun i j => if i = a then m b j else if i = b then m a j else m i j

/-- `System::setAxisSwap` (system.cpp 240-252) acting on the cumulative
transform: right-multiply by the row-swapped identity. -/
def setAxisSwap (cur : Mat4) (a1 a2 : Fin 4) : Mat4 :=
  cur * swapRows identity4x4 a1 a2

/-- `System::hasAxisSwap` (system.cpp 259-262): `s_axisSwap !=
ei::identity4x4()`. -/
def hasAxisSwap (m : Mat4) : Bool := decide (m ≠ identity4x4)

/-- A sequence of `setAxisSwap` calls applied to a starting transform. -/
def applySwaps (m : Mat4) (l : List (Fin 4 × Fin 4)) : Mat4 :=
  l.foldl (fun acc p => setAxisSwap acc p.1 p.2) m

/-- The matrix of a permutation of the four coordinates: entry (i,j) is
1 when `σ i = j`, else 0.  Row i is the `σ i`-th basis row vector. -/
def permMat (σ : Equiv.Perm (Fin 4)) : Mat4 :=
  fun i j => if σ i = j then 1 else 0

/-! ## Lemmas about the deduplicating log -/

lemma addMessage_notin (l : List (String × Nat)) (txt : String)
    (h : ∀ p ∈ l, p.1 ≠ txt) :
    addMessage l txt = (true, l ++ [(txt, 1)]) := by
  induction l with
  | nil => rfl
  | cons e rest ih =>
    have he : e.1 ≠ txt := h e (List.mem_cons_self e rest)
    simp only [addMessage, if_neg he]
    simp [ih (fun p hp => h p (List.mem_cons_of_mem e hp))]

lemma addMessage_found (l₁ l₂ : List (String × Nat)) (c : Nat) (txt : String)
    (h : ∀ p ∈ l₁, p.1 ≠ txt) :
    addMessage (l₁ ++ (txt, c) :: l₂) txt =
      (decide (c + 1 < 10), l₁ ++ (txt, c + 1) :: l₂) := by
  induction l₁ with
  | nil => simp [addMessage]
  | cons e rest ih =>
    have he : e.1 ≠ txt := h e (List.mem_cons_self e rest)
    simp only [List.cons_append, addMessage, if_neg he]
    simp [ih (fun p hp => h p (List.mem_cons_of_mem e hp))]

/-- How many of the next `n` repeats of an already-`c`-times-recorded
message are displayed: repeat number `c + 1 + i` shows iff its new count
is `< 10`. -/
def countD (c : Nat) : Nat → Nat
  | 0 => 0
  | n + 1 => (if c + 1 < 10 then 1 else 0) + countD (c + 1) n

lemma iterWarning_found (n : Nat) (l₁ l₂ : List (String × Nat)) (c : Nat)
    (er inf : List (String × Nat)) (od : List Char) (txt : String)
    (h : ∀ p ∈ l₁, p.1 ≠ txt) :
    iterWarning ⟨l₁ ++ (txt, c) :: l₂, er, inf, false, od⟩ txt n =
      (countD c n, ⟨l₁ ++ (txt, c + n) :: l₂, er, inf, false, od⟩) := by
  induction n generalizing c with
  | zero => rfl
  | succ n ih =>
    simp only [iterWarning, warning, addMessage_found l₁ l₂ c txt h,
      Bool.not_false, Bool.and_true, countD]
    rw [ih (c + 1)]
    by_cases h10 : c + 1 < 10 <;>
      simp [h10, Nat.add_assoc, Nat.add_comm 1 n]

lemma iterWarning_fresh (m : Nat) (l : List (String × Nat))
    (er inf : List (String × Nat)) (od : List Char) (txt : String)
    (h : ∀ p ∈ l, p.1 ≠ txt) :
    iterWarning ⟨l, er, inf, false, od⟩ txt (m + 1) =
      (1 + countD 1 m, ⟨l ++ [(txt, 1 + m)], er, inf, false, od⟩) := by
  simp only [iterWarning, warning, addMessage_notin l txt h,
    Bool.not_false, Bool.and_true]
  have : l ++ [(txt, 1)] = l ++ (txt, 1) :: [] := rfl
  rw [this, iterWarning_found m l [] 1 er inf od txt h]
  simp [Nat.add_comm 1 m]

lemma iterError_found (n : Nat) (l₁ l₂ : List (String × Nat)) (c : Nat)
    (w inf : List (String × Nat)) (si : Bool) (od : List Char) (txt : String)
    (h : ∀ p ∈ l₁, p.1 ≠ txt) :
    iterError ⟨w, l₁ ++ (txt, c) :: l₂, inf, si, od⟩ txt n =
      (n, ⟨w, l₁ ++ (txt, c + n) :: l₂, inf, si, od⟩) := by
  induction n generalizing c with
  | zero => rfl
  | succ n ih =>
    simp only [iterError, error, addMessage_found l₁ l₂ c txt h]
    rw [ih (c + 1)]
    simp [Nat.add_assoc, Nat.add_comm 1 n]

lemma iterError_fresh (m : Nat) (l : List (String × Nat))
    (w inf : List (String × Nat)) (si : Bool) (od : List Char) (txt : String)
    (h : ∀ p ∈ l, p.1 ≠ txt) :
    iterError ⟨w, l, inf, si, od⟩ txt (m + 1) =
      (m + 1, ⟨w, l ++ [(txt, 1 + m)], inf, si, od⟩) := by
  simp only [iterError, error, addMessage_notin l txt h]
  have : l ++ [(txt, 1)] = l ++ (txt, 1) :: [] := rfl
  rw [this, iterError_found m l [] 1 w inf si od txt h]
  simp [Nat.add_comm 1 m]

lemma foldl_snd_le (l : List (String × Nat)) (n : Nat) :
    n ≤ l.foldl (fun acc e => acc + e.2) n := by
  induction l generalizing n with
  | nil => exact Nat.le_refl n
  | cons e rest ih =>
    exact Nat.le_trans (Nat.le_add_right n e.2) (ih (n + e.2))

lemma foldl_snd_mem_le (l : List (String × Nat)) (t : String) (c : Nat)
    (hm : (t, c) ∈ l) : ∀ n, c ≤ l.foldl (fun acc e => acc + e.2) n := by
  induction l with
  | nil => cases hm
  | cons e rest ih =>
    intro n
    rcases List.mem_cons.mp hm with h | h
    · subst h
      exact Nat.le_trans (Nat.le_add_left c n) (foldl_snd_le rest (n + c))
    · exact ih h (n + e.2)

lemma displayStrings_mem (vec : List (String × Nat)) (name t : String)
    (c : Nat) (hm : (t, c) ∈ vec) (hc : 0 < c) :
    ("(" ++ toString c ++ ") " ++ t) ∈ displayStrings vec name := by
  have hcount : vec.foldl (fun acc e => acc + e.2) 0 ≠ 0 :=
    Nat.pos_iff_ne_zero.mp (Nat.lt_of_lt_of_le hc (foldl_snd_mem_le vec t c hm 0))
  simp only [displayStrings, if_pos hcount]
  exact List.mem_cons_of_mem _ (List.mem_map.mpr ⟨(t, c), hm, rfl⟩)

lemma addMessage_mem (l : List (String × Nat)) (msg : String) :
    msg ∈ (addMessage l msg).2.map Prod.fst := by
  induction l with
  | nil => simp [addMessage]
  | cons e rest ih =>
    by_cases he : e.1 = msg
    · simp [addMessage, he]
    · simp only [addMessage, if_neg he]
      simpa using Or.inr ih

/-! ## Claim theorems: diagnostics -/

/-- C1: recording the same warning text 12 times with the silent flag
unset displays it exactly 9 times (occurrences 1-9; from the 10th on the
incremented count fails the `< 10` check), while the stored count reaches
12 and the line `(12) <txt>` appears in the warning summary. -/
theorem claim1_warning_dedup (st : SysState) (txt : String)
    (hs : st.argSilent = false) (h : ∀ p ∈ st.warnings, p.1 ≠ txt) :
    (iterWarning st txt 12).1 = 9 ∧
    (iterWarning st txt 12).2.warnings = st.warnings ++ [(txt, 12)] ∧
    ("(12) " ++ txt) ∈
      displayStrings (iterWarning st txt 12).2.warnings "WARNINGS" := by
  obtain ⟨w, er, inf, si, od⟩ := st
  dsimp only at hs h ⊢
  subst hs
  have h12 : iterWarning ⟨w, er, inf, false, od⟩ txt 12 =
      (1 + countD 1 11, ⟨w ++ [(txt, 1 + 11)], er, inf, false, od⟩) :=
    iterWarning_fresh 11 w er inf od txt h
  rw [h12]
  refine ⟨by show 1 + countD 1 11 = 9; decide, rfl, ?_⟩
  have hmem : (txt, (12 : Nat)) ∈ w ++ [(txt, 12)] := by simp
  exact displayStrings_mem (w ++ [(txt, 12)]) "WARNINGS" txt 12 hmem (by norm_num)

/-- Witness for C1 at the fresh state and text `"w"`. -/
theorem claim1_witness :
    ((⟨[], [], [], false, []⟩ : SysState).argSilent = false ∧
      (∀ p ∈ (⟨[], [], [], false, []⟩ : SysState).warnings, p.1 ≠ "w")) ∧
    ((iterWarning ⟨[], [], [], false, []⟩ "w" 12).1 = 9 ∧
      (iterWarning ⟨[], [], [], false, []⟩ "w" 12).2.warnings =
        (⟨[], [], [], false, []⟩ : SysState).warnings ++ [("w", 12)] ∧
      ("(12) " ++ "w") ∈
        displayStrings (iterWarning ⟨[], [], [], false, []⟩ "w" 12).2.warnings
          "WARNINGS") :=
  ⟨⟨rfl, by simp⟩, claim1_warning_dedup ⟨[], [], [], false, []⟩ "w" rfl (by simp)⟩

/-- C5: `System::error` always reports that a console line was written,
for every state (in particular whatever the silent flag is) and however
often the text was recorded before; 100 identical calls give 100 lines,
a stored count of 100, and the line `(100) <txt>` in the error summary. -/
theorem claim5_error_always_displayed :
    (∀ (st : SysState) (txt : String), (error st txt).1 = true) ∧
    (∀ (st : SysState) (txt : String), (∀ p ∈ st.errors, p.1 ≠ txt) →
      (iterError st txt 100).1 = 100 ∧
      (iterError st txt 100).2.errors = st.errors ++ [(txt, 100)] ∧
      ("(100) " ++ txt) ∈
        displayStrings (iterError st txt 100).2.errors "ERRORS") := by
  refine ⟨fun st txt => rfl, fun st txt h => ?_⟩
  obtain ⟨w, er, inf, si, od⟩ := st
  dsimp only at h ⊢
  have h100 : iterError ⟨w, er, inf, si, od⟩ txt 100 =
      (100, ⟨w, er ++ [(txt, 1 + 99)], inf, si, od⟩) :=
    iterError_fresh 99 er w inf si od txt h
  rw [h100]
  refine ⟨rfl, rfl, ?_⟩
  have hmem : (txt, (100 : Nat)) ∈ er ++ [(txt, 100)] := by simp
  exact displayStrings_mem (er ++ [(txt, 100)]) "ERRORS" txt 100 hmem (by norm_num)

/-- Witness for C5 at a state whose silent flag is SET, with text `"e"`. -/
theorem claim5_witness :
    (∀ p ∈ (⟨[], [], [], true, []⟩ : SysState).errors, p.1 ≠ "e") ∧
    ((error ⟨[], [], [], true, []⟩ "e").1 = true ∧
      (iterError ⟨[], [], [], true, []⟩ "e" 100).1 = 100 ∧
      (iterError ⟨[], [], [], true, []⟩ "e" 100).2.errors =
        (⟨[], [], [], true, []⟩ : SysState).errors ++ [("e", 100)] ∧
      ("(100) " ++ "e") ∈
        displayStrings (iterError ⟨[], [], [], true, []⟩ "e" 100).2.errors
          "ERRORS") :=
  ⟨by simp,
    claim5_error_always_displayed.1 ⟨[], [], [], true, []⟩ "e",
    claim5_error_always_displayed.2 ⟨[], [], [], true, []⟩ "e" (by simp)⟩

/-- C2: when the writability probe fails, `setOutputDirectory` throws
(returns failure), records the `cannot write ...` error, and has already
overwritten the stored output directory with `getFileDirectory dir`; so
whenever that differs from the previously stored directory, the stored
value after the failed call differs from the value before — the
operation is not atomic on error. -/
theorem claim2_setOutputDirectory_not_atomic (st : SysState) (dir : String) :
    (setOutputDirectory st dir false).1 = false ∧
    getOutputDirectory (setOutputDirectory st dir false).2 =
      getFileDirectory dir.toList ∧
    ("cannot write in output directory " ++ dir) ∈
      ((setOutputDirectory st dir false).2.errors.map Prod.fst) ∧
    (getOutputDirectory st ≠ getFileDirectory dir.toList →
      getOutputDirectory (setOutputDirectory st dir false).2 ≠
        getOutputDirectory st) := by
  refine ⟨rfl, rfl, ?_, ?_⟩
  · exact addMessage_mem st.errors ("cannot write in output directory " ++ dir)
  · intro hne hEq
    exact hne hEq.symm

/-- Witness for C2 at the fresh state and argument `"out\\sub"`. -/
theorem claim2_witness :
    getOutputDirectory (⟨[], [], [], false, []⟩ : SysState) ≠
      getFileDirectory "out\\sub".toList ∧
    (setOutputDirectory ⟨[], [], [], false, []⟩ "out\\sub" false).1 = false ∧
    getOutputDirectory
        (setOutputDirectory ⟨[], [], [], false, []⟩ "out\\sub" false).2 ≠
      getOutputDirectory (⟨[], [], [], false, []⟩ : SysState) :=
  ⟨by decide,
    (claim2_setOutputDirectory_not_atomic ⟨[], [], [], false, []⟩ "out\\sub").1,
    (claim2_setOutputDirectory_not_atomic ⟨[], [], [], false, []⟩
        "out\\sub").2.2.2 (by decide)⟩

/-- C4 (documents the code bug): the very first `runtimeInfoSpam` call of
a process, silent flag unset, initializes the static timestamp to the
current clock value, so the elapsed-time test `0 > 200` fails and the
message is NOT displayed — a warm-up call is required, contradicting the
claim that the first call always displays. -/
theorem claim4_first_call_suppressed :
    (∀ t : Nat, runtimeInfoSpam false none t = (false, some t)) ∧
    runtimeInfoSpam false none 1000 = (false, some 1000) := by
  constructor
  · intro t
    simp [runtimeInfoSpam]
  · rfl

/-! ## Lemmas about the axis-swap transform -/

lemma swapRows_identity (a b : Fin 4) :
    swapRows identity4x4 a b = permMat (Equiv.swap a b) := by
  funext i j
  simp only [swapRows, permMat, identity4x4, Matrix.one_apply]
  by_cases hia : i = a
  · subst hia
    rw [if_pos rfl, Equiv.swap_apply_left]
  · by_cases hib : i = b
    · subst hib
      rw [if_neg hia, if_pos rfl, Equiv.swap_apply_right]
    · rw [if_neg hia, if_neg hib, Equiv.swap_apply_of_ne_of_ne hia hib]

lemma permMat_mul (σ τ : Equiv.Perm (Fin 4)) :
    permMat σ * permMat τ = permMat (σ.trans τ) := by
  funext i j
  rw [show (permMat σ * permMat τ) i j = _ from Matrix.mul_apply]
  rw [Finset.sum_eq_single (σ i)
    (fun b _ hb => by simp [permMat, Ne.symm hb])
    (fun habs => absurd (Finset.mem_univ (σ i)) habs)]
  simp [permMat, Equiv.trans_apply]

lemma permMat_refl : permMat (Equiv.refl (Fin 4)) = identity4x4 := by
  funext i j
  simp [permMat, identity4x4, Matrix.one_apply]

lemma permMat_transpose (σ : Equiv.Perm (Fin 4)) :
    Matrix.transpose (permMat σ) = permMat σ.symm := by
  funext i j
  simp only [Matrix.transpose_apply, permMat]
  have hiff : (σ j = i) ↔ (σ.symm i = j) := by
    rw [Equiv.symm_apply_eq]
    exact eq_comm
  rw [if_congr hiff rfl rfl]

lemma applySwaps_perm (l : List (Fin 4 × Fin 4)) :
    ∀ σ, ∃ τ, applySwaps (permMat σ) l = permMat τ := by
  induction l with
  | nil => exact fun σ => ⟨σ, rfl⟩
  | cons p l ih =>
    intro σ
    have hstep : setAxisSwap (permMat σ) p.1 p.2 =
        permMat (σ.trans (Equiv.swap p.1 p.2)) := by
      rw [setAxisSwap, swapRows_identity, permMat_mul]
    obtain ⟨τ, hτ⟩ := ih (σ.trans (Equiv.swap p.1 p.2))
    refine ⟨τ, ?_⟩
    simp only [applySwaps, List.foldl_cons]
    rw [hstep]
    exact hτ

/-! ## Claim theorems: axis-swap transform -/

/-- C6: two successive `setAxisSwap(0,1)` applications starting from the
identity restore the identity transform, and `hasAxisSwap` is `false`
exactly when the cumulative transform equals the identity matrix. -/
theorem claim6_swap_involution :
    setAxisSwap (setAxisSwap identity4x4 0 1) 0 1 = identity4x4 ∧
    (∀ m : Mat4, hasAxisSwap m = false ↔ m = identity4x4) := by
  constructor
  · simp only [setAxisSwap, swapRows_identity]
    have h1 : identity4x4 * permMat (Equiv.swap (0 : Fin 4) 1) =
        permMat (Equiv.swap (0 : Fin 4) 1) := one_mul _
    rw [h1, permMat_mul, Equiv.swap_swap]
    exact permMat_refl
  · intro m
    simp only [hasAxisSwap, decide_eq_false_iff_not, not_not]

/-- C7: starting from the identity, any sequence of `setAxisSwap` calls
with valid (distinct, in-range) axis indices keeps the cumulative
transform a signed permutation matrix: every entry lies in {0, 1, -1}
and the matrix is orthogonal.  The validity hypothesis mirrors the
asserts of the source; the invariant holds for row swaps regardless. -/
theorem claim7_axis_swap_invariant (l : List (Fin 4 × Fin 4))
    (hvalid : ∀ p ∈ l, p.1.val ≤ 2 ∧ p.2.val ≤ 2 ∧ p.1 ≠ p.2) :
    (∀ i j, applySwaps identity4x4 l i j = 0 ∨
        applySwaps identity4x4 l i j = 1 ∨
        applySwaps identity4x4 l i j = -1) ∧
    Matrix.transpose (applySwaps identity4x4 l) * applySwaps identity4x4 l =
      identity4x4 := by
  obtain ⟨τ, hτ⟩ := applySwaps_perm l (Equiv.refl (Fin 4))
  rw [permMat_refl] at hτ
  rw [hτ]
  constructor
  · intro i j
    simp only [permMat]
    by_cases h : τ i = j
    · rw [if_pos h]
      exact Or.inr (Or.inl rfl)
    · rw [if_neg h]
      exact Or.inl rfl
  · rw [permMat_transpose, permMat_mul, Equiv.symm_trans_self]
    exact permMat_refl

/-- Witness for C7 with the call sequence `applySwap(0,1); applySwap(1,2)`. -/
theorem claim7_witness :
    (∀ p ∈ ([((0 : Fin 4), (1 : Fin 4)), (1, 2)] : List (Fin 4 × Fin 4)),
      p.1.val ≤ 2 ∧ p.2.val ≤ 2 ∧ p.1 ≠ p.2) ∧
    ((∀ i j, applySwaps identity4x4 [((0 : Fin 4), (1 : Fin 4)), (1, 2)] i j = 0 ∨
        applySwaps identity4x4 [((0 : Fin 4), (1 : Fin 4)), (1, 2)] i j = 1 ∨
        applySwaps identity4x4 [((0 : Fin 4), (1 : Fin 4)), (1, 2)] i j = -1) ∧
      Matrix.transpose (applySwaps identity4x4 [((0 : Fin 4), (1 : Fin 4)), (1, 2)]) *
          applySwaps identity4x4 [((0 : Fin 4), (1 : Fin 4)), (1, 2)] =
        identity4x4) :=
  ⟨by decide, claim7_axis_swap_invariant [((0 : Fin 4), (1 : Fin 4)), (1, 2)]
    (by decide)⟩

/-! ## Lemmas about find_last_of -/

lemma findLastIdx_none_iff (s : List Char) (c : Char) :
    findLastIdx s c = none ↔ c ∉ s := by
  induction s with
  | nil => simp [findLastIdx]
  | cons a rest ih =>
    cases h : findLastIdx rest c with
    | some i =>
      have hc : c ∈ rest := by
        by_contra hcn
        rw [← ih, h] at hcn
        exact Option.noConfusion hcn
      simp [findLastIdx, h, hc]
    | none =>
      have hrest : c ∉ rest := ih.mp h
      by_cases hac : a = c
      · simp [findLastIdx, h, hac]
      · have hca : ¬c = a := fun hca => hac hca.symm
        simp [findLastIdx, h, hac, hrest, hca]

lemma findLastIdx_spec (s : List Char) (c : Char) (i : Nat)
    (h : findLastIdx s c = some i) :
    s.get? i = some c ∧ ∀ j, i < j → s.get? j ≠ some c := by
  induction s generalizing i with
  | nil => cases h
  | cons a rest ih =>
    cases hr : findLastIdx rest c with
    | some k =>
      simp only [findLastIdx, hr] at h
      obtain rfl : k + 1 = i := Option.some_injective _ h
      obtain ⟨hget, hlast⟩ := ih k hr
      refine ⟨hget, fun j hj => ?_⟩
      match j, hj with
      | j' + 1, hj =>
        exact hlast j' (Nat.lt_of_succ_lt_succ hj)
    | none =>
      simp only [findLastIdx, hr] at h
      by_cases hac : a = c
      · rw [if_pos hac] at h
        obtain rfl : 0 = i := Option.some_injective _ h
        have hrest : c ∉ rest := (findLastIdx_none_iff rest c).mp hr
        refine ⟨by simp [hac], fun j hj => ?_⟩
        match j, hj with
        | j' + 1, _ =>
          intro hcon
          exact hrest (List.get?_mem hcon)
      · rw [if_neg hac] at h
        cases h

lemma findLastIdx_isSome (s : List Char) (c : Char) (h : c ∈ s) :
    ∃ i, findLastIdx s c = some i := by
  cases hf : findLastIdx s c with
  | none => exact absurd ((findLastIdx_none_iff s c).mp hf) (not_not.mpr h)
  | some i => exact ⟨i, rfl⟩

/-! ## Claim theorems: getFileDirectory and removeFileEnding -/

/-- C3 counterexample: on an input with no separator at all,
`getFileDirectory` returns the input unchanged — not the empty string the
claim demands. -/
theorem claim3_counterexample :
    getFileDirectory "noslash".toList = "noslash".toList ∧
    "noslash".toList ≠ ([] : List Char) := by
  constructor <;> decide

/-- C3 amended: an input with neither separator is returned UNCHANGED
(not as the empty string); an input containing a backslash is cut after
the last backslash; an input containing a forward slash but no backslash
is cut after the last forward slash (backslash style checked first). -/
theorem claim3_getFileDirectory_amended :
    (∀ s : List Char, bslash ∉ s → '/' ∉ s → getFileDirectory s = s) ∧
    (∀ s : List Char, bslash ∈ s → ∃ i, s.get? i = some bslash ∧
      (∀ j, i < j → s.get? j ≠ some bslash) ∧
      getFileDirectory s = s.take (i + 1)) ∧
    (∀ s : List Char, bslash ∉ s → '/' ∈ s → ∃ i, s.get? i = some '/' ∧
      (∀ j, i < j → s.get? j ≠ some '/') ∧
      getFileDirectory s = s.take (i + 1)) := by
  refine ⟨?_, ?_, ?_⟩
  · intro s h1 h2
    simp [getFileDirectory, (findLastIdx_none_iff s bslash).mpr h1,
      (findLastIdx_none_iff s '/').mpr h2]
  · intro s hmem
    obtain ⟨i, hi⟩ := findLastIdx_isSome s bslash hmem
    obtain ⟨hget, hlast⟩ := findLastIdx_spec s bslash i hi
    exact ⟨i, hget, hlast, by simp [getFileDirectory, hi]⟩
  · intro s hnb hmem
    have hb : findLastIdx s bslash = none := (findLastIdx_none_iff s bslash).mpr hnb
    obtain ⟨i, hi⟩ := findLastIdx_isSome s '/' hmem
    obtain ⟨hget, hlast⟩ := findLastIdx_spec s '/' i hi
    exact ⟨i, hget, hlast, by simp [getFileDirectory, hb, hi]⟩

/-- Witness for the three branches of the amended C3. -/
theorem claim3_witness :
    (bslash ∉ "noext".toList ∧ '/' ∉ "noext".toList ∧
      getFileDirectory "noext".toList = "noext".toList) ∧
    (bslash ∈ "a\\b\\c.txt".toList ∧
      (∃ i, "a\\b\\c.txt".toList.get? i = some bslash ∧
        (∀ j, i < j → "a\\b\\c.txt".toList.get? j ≠ some bslash) ∧
        getFileDirectory "a\\b\\c.txt".toList =
          "a\\b\\c.txt".toList.take (i + 1))) ∧
    (bslash ∉ "a/b/c.txt".toList ∧ '/' ∈ "a/b/c.txt".toList ∧
      (∃ i, "a/b/c.txt".toList.get? i = some '/' ∧
        (∀ j, i < j → "a/b/c.txt".toList.get? j ≠ some '/') ∧
        getFileDirectory "a/b/c.txt".toList =
          "a/b/c.txt".toList.take (i + 1))) :=
  ⟨⟨by decide, by decide,
      claim3_getFileDirectory_amended.1 _ (by decide) (by decide)⟩,
    ⟨by decide, claim3_getFileDirectory_amended.2.1 _ (by decide)⟩,
    ⟨by decide, by decide,
      claim3_getFileDirectory_amended.2.2 _ (by decide) (by decide)⟩⟩

/-- C10: `removeFileEnding` truncates at the last dot of the whole
string, paying no attention to separators; on `"dir.v2\\file"`, whose
last dot (index 3) comes before the last backslash (index 6), it yields
`"dir"`, cutting into the directory part. -/
theorem claim10_removeFileEnding :
    (∀ (s : List Char) (i : Nat), findLastIdx s '.' = some i →
      removeFileEnding s = s.take i ∧ s.get? i = some '.' ∧
      ∀ j, i < j → s.get? j ≠ some '.') ∧
    removeFileEnding "dir.v2\\file".toList = "dir".toList ∧
    (∃ i j, findLastIdx "dir.v2\\file".toList '.' = some i ∧
      findLastIdx "dir.v2\\file".toList bslash = some j ∧ i < j) := by
  refine ⟨fun s i h => ?_, by decide, ⟨3, 6, by decide, by decide, by decide⟩⟩
  exact ⟨by simp [removeFileEnding, h], (findLastIdx_spec s '.' i h).1,
    (findLastIdx_spec s '.' i h).2⟩

/-- Witness for C10's universal part at `"dir.v2\\file"`. -/
theorem claim10_witness :
    findLastIdx "dir.v2\\file".toList '.' = some 3 ∧
    (removeFileEnding "dir.v2\\file".toList = "dir.v2\\file".toList.take 3 ∧
      "dir.v2\\file".toList.get? 3 = some '.' ∧
      ∀ j, 3 < j → "dir.v2\\file".toList.get? j ≠ some '.') :=
  ⟨by decide, claim10_removeFileEnding.1 _ 3 (by decide)⟩

/-! ## Lemmas about startsWith and strFind -/

lemma startsWith_length (pat : List Char) : ∀ s : List Char,
    startsWith pat s = true → pat.length ≤ s.length := by
  induction pat with
  | nil => intro s _; exact Nat.zero_le _
  | cons p ps ih =>
    intro s h
    cases s with
    | nil => cases h
    | cons c cs =>
      rw [startsWith, Bool.and_eq_true] at h
      exact Nat.succ_le_succ (ih cs h.2)

lemma startsWith_iff_append (pat : List Char) : ∀ s : List Char,
    startsWith pat s = true ↔ ∃ t, s = pat ++ t := by
  induction pat with
  | nil =>
    intro s
    simp [startsWith]
  | cons p ps ih =>
    intro s
    cases s with
    | nil =>
      simp [startsWith]
    | cons c cs =>
      rw [startsWith, Bool.and_eq_true, decide_eq_true_eq, ih cs]
      constructor
      · rintro ⟨rfl, t, rfl⟩
        exact ⟨t, rfl⟩
      · rintro ⟨t, ht⟩
        rw [List.cons_append] at ht
        injection ht with h1 h2
        exact ⟨h1.symm, t, h2⟩

lemma startsWith_append_self (pat t : List Char) :
    startsWith pat (pat ++ t) = true :=
  (startsWith_iff_append pat (pat ++ t)).mpr ⟨t, rfl⟩

lemma strFind_some_starts (s pat : List Char) : ∀ p : Nat,
    strFind s pat = some p → startsWith pat (s.drop p) = true := by
  induction s with
  | nil =>
    intro p h
    by_cases hs : startsWith pat [] = true
    · rw [strFind, if_pos hs] at h
      obtain rfl : 0 = p := Option.some_injective _ h
      exact hs
    · rw [strFind, if_neg hs] at h
      cases h
  | cons c rest ih =>
    intro p h
    by_cases hs : startsWith pat (c :: rest) = true
    · rw [strFind, if_pos hs] at h
      obtain rfl : 0 = p := Option.some_injective _ h
      exact hs
    · rw [strFind, if_neg hs] at h
      obtain ⟨p', hp', rfl⟩ := Option.map_eq_some'.mp h
      exact ih p' hp'

lemma strFind_none_iff (s pat : List Char) :
    strFind s pat = none ↔ ∀ q, startsWith pat (s.drop q) = false := by
  induction s with
  | nil =>
    constructor
    · intro h q
      by_cases hs : startsWith pat [] = true
      · rw [strFind, if_pos hs] at h
        cases h
      · simpa using Bool.eq_false_iff.mpr (fun hc => hs (by simpa using hc))
    · intro h
      rw [strFind, if_neg (Bool.eq_false_iff.mp (by simpa using h 0))]
  | cons c rest ih =>
    constructor
    · intro h q
      by_cases hs : startsWith pat (c :: rest) = true
      · rw [strFind, if_pos hs] at h
        cases h
      · rw [strFind, if_neg hs] at h
        have hrest := ih.mp (Option.map_eq_none'.mp h)
        cases q with
        | zero => exact Bool.eq_false_iff.mpr hs
        | succ q' => exact hrest q'
    · intro h
      have hs : startsWith pat (c :: rest) = false := h 0
      rw [strFind, if_neg (Bool.eq_false_iff.mp hs), Option.map_eq_none']
      exact ih.mpr (fun q => h (q + 1))

lemma strFind_eq_some_iff (s pat : List Char) : ∀ p : Nat,
    strFind s pat = some p ↔ (startsWith pat (s.drop p) = true ∧
      ∀ q, q < p → startsWith pat (s.drop q) = false) := by
  induction s with
  | nil =>
    intro p
    by_cases hs : startsWith pat [] = true
    · rw [strFind, if_pos hs]
      cases p with
      | zero => simpa using hs
      | succ p' =>
        constructor
        · intro h; cases h
        · intro ⟨_, hmin⟩
          have := hmin 0 (Nat.succ_pos p')
          rw [List.drop_nil] at this
          rw [hs] at this
          cases this
    · rw [strFind, if_neg hs]
      constructor
      · intro h; cases h
      · intro ⟨hst, _⟩
        rw [List.drop_nil] at hst
        exact absurd hst hs
  | cons c rest ih =>
    intro p
    by_cases hs : startsWith pat (c :: rest) = true
    · rw [strFind, if_pos hs]
      cases p with
      | zero =>
        constructor
        · intro _
          exact ⟨by simpa using hs, fun q hq => absurd hq (Nat.not_lt_zero q)⟩
        · intro _
          rfl
      | succ p' =>
        constructor
        · intro h; cases h
        · intro ⟨_, hmin⟩
          have := hmin 0 (Nat.succ_pos p')
          rw [List.drop_zero, hs] at this
          cases this
    · rw [strFind, if_neg hs]
      cases p with
      | zero =>
        constructor
        · intro h
          obtain ⟨p', _, hp'⟩ := Option.map_eq_some'.mp h
          cases hp'
        · intro ⟨hst, _⟩
          rw [List.drop_zero] at hst
          exact absurd hst hs
      | succ p' =>
        constructor
        · intro h
          obtain ⟨q', hq', hq⟩ := Option.map_eq_some'.mp h
          have hqp : q' = p' := Nat.succ_injective hq
          rw [hqp] at hq'
          obtain ⟨h1, h2⟩ := (ih p').mp hq'
          refine ⟨h1, fun q hq => ?_⟩
          cases q with
          | zero => exact Bool.eq_false_iff.mpr hs
          | succ q'' => exact h2 q'' (Nat.lt_of_succ_lt_succ hq)
        · intro ⟨h1, h2⟩
          rw [Option.map_eq_some']
          refine ⟨p', (ih p').mpr ⟨h1, fun q hq => h2 (q + 1)
            (Nat.succ_lt_succ hq)⟩, rfl⟩

lemma strFind_some_le (s pat : List Char) (p : Nat) (hpat : pat ≠ [])
    (h : strFind s pat = some p) : p < s.length := by
  have hst := strFind_some_starts s pat p h
  have hlen := startsWith_length pat _ hst
  rw [List.length_drop] at hlen
  have hpos : 0 < pat.length := List.length_pos.mpr hpat
  omega

/-! ## Lemmas about the backwards scroll -/

lemma scroll_le (s : List Char) : ∀ q, scroll s q ≤ q := by
  intro q
  induction q with
  | zero => exact Nat.le_refl 0
  | succ q ih =>
    rw [scroll]
    by_cases h : s.get? (q + 1) = some bslash
    · rw [if_pos h]
    · rw [if_neg h]
      exact Nat.le_trans ih (Nat.le_succ q)

lemma scroll_exit (s : List Char) : ∀ q,
    scroll s q = 0 ∨ s.get? (scroll s q) = some bslash := by
  intro q
  induction q with
  | zero => exact Or.inl rfl
  | succ q ih =>
    rw [scroll]
    by_cases h : s.get? (q + 1) = some bslash
    · rw [if_pos h]
      exact Or.inr h
    · rw [if_neg h]
      exact ih

lemma scrollBack_le (s : List Char) (p : Nat) : scrollBack s p ≤ p := by
  rw [scrollBack]
  by_cases h : p = 0
  · rw [if_pos h, h]
  · rw [if_neg h]
    exact Nat.le_trans (scroll_le s (p - 1)) (Nat.sub_le p 1)

lemma scrollBack_exit (s : List Char) (p : Nat) :
    scrollBack s p = 0 ∨ s.get? (scrollBack s p) = some bslash := by
  rw [scrollBack]
  by_cases h : p = 0
  · rw [if_pos h]
    exact Or.inl rfl
  · rw [if_neg h]
    exact scroll_exit s (p - 1)

lemma scroll_eq_of (s : List Char) : ∀ q j, j ≤ q →
    (∀ r, j < r → r ≤ q → s.get? r ≠ some bslash) →
    s.get? j = some bslash → scroll s q = j := by
  intro q
  induction q with
  | zero =>
    intro j hj _ _
    exact (Nat.le_zero.mp hj).symm ▸ rfl
  | succ q ih =>
    intro j hj hmid hjb
    rw [scroll]
    by_cases h : s.get? (q + 1) = some bslash
    · rw [if_pos h]
      rcases Nat.lt_or_ge j (q + 1) with hlt | hge
      · exact absurd h (hmid (q + 1) hlt (Nat.le_refl _))
      · exact (Nat.le_antisymm hj hge).symm
    · rw [if_neg h]
      have hjq : j ≤ q := by
        rcases Nat.lt_or_ge j (q + 1) with hlt | hge
        · exact Nat.lt_succ_iff.mp hlt
        · exact absurd (Nat.le_antisymm hj hge ▸ hjb) h
      exact ih j hjq (fun r hr1 hr2 => hmid r hr1 (Nat.le_trans hr2 (Nat.le_succ q))) hjb

/-! ## Lemmas about the two fixPath loops -/

lemma removeStep_length (s : List Char) (p : Nat)
    (h : strFind s dblPat = some p) :
    (s.take p ++ s.drop (p + 1)).length + 1 = s.length := by
  have hp : p < s.length := strFind_some_le s dblPat p (by decide) h
  rw [List.length_append, List.length_take, List.length_drop]
  omega

lemma collapseStep_length (s : List Char) (p : Nat)
    (h : strFind s dotsPat = some p) :
    (s.take (scrollBack s p) ++ s.drop (p + 3)).length + 3 ≤ s.length := by
  have hst := strFind_some_starts s dotsPat p h
  have hlen := startsWith_length dotsPat _ hst
  rw [List.length_drop] at hlen
  have hp : p < s.length := strFind_some_le s dotsPat p (by decide) h
  have hsb : scrollBack s p ≤ p := scrollBack_le s p
  rw [List.length_append, List.length_take, List.length_drop]
  have hpat : dotsPat.length = 4 := rfl
  omega

lemma removeDoublesGo_find_none : ∀ fuel s, s.length ≤ fuel →
    strFind (removeDoublesGo fuel s) dblPat = none := by
  intro fuel
  induction fuel with
  | zero =>
    intro s hs
    have : s = [] := List.length_eq_zero.mp (Nat.le_zero.mp hs)
    subst this
    rfl
  | succ fuel ih =>
    intro s hs
    cases h : strFind s dblPat with
    | none =>
      rw [removeDoublesGo, h]
      exact h
    | some p =>
      rw [removeDoublesGo, h]
      apply ih
      have := removeStep_length s p h
      omega

lemma collapseDotsGo_find_none : ∀ fuel s, s.length ≤ fuel →
    strFind (collapseDotsGo fuel s) dotsPat = none := by
  intro fuel
  induction fuel with
  | zero =>
    intro s hs
    have : s = [] := List.length_eq_zero.mp (Nat.le_zero.mp hs)
    subst this
    rfl
  | succ fuel ih =>
    intro s hs
    cases h : strFind s dotsPat with
    | none =>
      rw [collapseDotsGo, h]
      exact h
    | some p =>
      rw [collapseDotsGo, h]
      apply ih
      have := collapseStep_length s p h
      omega

lemma removeDoublesGo_of_none (fuel : Nat) (s : List Char)
    (h : strFind s dblPat = none) : removeDoublesGo fuel s = s := by
  cases fuel with
  | zero => rfl
  | succ fuel => rw [removeDoublesGo, h]

lemma collapseDotsGo_of_none (fuel : Nat) (s : List Char)
    (h : strFind s dotsPat = none) : collapseDotsGo fuel s = s := by
  cases fuel with
  | zero => rfl
  | succ fuel => rw [collapseDotsGo, h]

lemma removeDoublesGo_mem : ∀ fuel s a, a ∈ removeDoublesGo fuel s → a ∈ s := by
  intro fuel
  induction fuel with
  | zero => intro s a h; exact h
  | succ fuel ih =>
    intro s a h
    cases hf : strFind s dblPat with
    | none =>
      rw [removeDoublesGo, hf] at h
      exact h
    | some p =>
      rw [removeDoublesGo, hf] at h
      rcases List.mem_append.mp (ih _ a h) with h1 | h2
      · exact (List.take_sublist p s).mem h1
      · exact (List.drop_sublist (p + 1) s).mem h2

lemma collapseDotsGo_mem : ∀ fuel s a, a ∈ collapseDotsGo fuel s → a ∈ s := by
  intro fuel
  induction fuel with
  | zero => intro s a h; exact h
  | succ fuel ih =>
    intro s a h
    cases hf : strFind s dotsPat with
    | none =>
      rw [collapseDotsGo, hf] at h
      exact h
    | some p =>
      rw [collapseDotsGo, hf] at h
      rcases List.mem_append.mp (ih _ a h) with h1 | h2
      · exact (List.take_sublist (scrollBack s p) s).mem h1
      · exact (List.drop_sublist (p + 3) s).mem h2

/-! ## No-doubled-separator invariant -/

/-- The adjacency relation "not two backslashes in a row". -/
def NoDbl (a b : Char) : Prop := ¬(a = bslash ∧ b = bslash)

lemma strFind_dbl_none_iff_chain : ∀ s : List Char,
    strFind s dblPat = none ↔ List.Chain' NoDbl s := by
  intro s
  induction s with
  | nil => simp [strFind, startsWith, dblPat]
  | cons c rest ih =>
    cases rest with
    | nil => simp [strFind, startsWith, dblPat]
    | cons d rest2 =>
      by_cases hs : startsWith dblPat (c :: d :: rest2) = true
      · rw [strFind, if_pos hs]
        have hcd : bslash = c ∧ bslash = d := by
          simpa [dblPat, startsWith] using hs
        constructor
        · intro h
          cases h
        · intro h
          exact absurd ⟨hcd.1.symm, hcd.2.symm⟩ (List.chain'_cons.mp h).1
      · rw [strFind, if_neg hs, Option.map_eq_none', List.chain'_cons, ih]
        have hR : NoDbl c d := by
          intro ⟨h1, h2⟩
          exact hs (by simp [dblPat, startsWith, h1, h2])
        exact ⟨fun h => ⟨hR, h⟩, fun h => h.2⟩

lemma chain_take {R : Char → Char → Prop} (s : List Char) (n : Nat)
    (h : List.Chain' R s) : List.Chain' R (s.take n) := by
  have hsplit : List.Chain' R (s.take n ++ s.drop n) := by
    rw [List.take_append_drop]
    exact h
  exact (List.chain'_append.mp hsplit).1

lemma chain_drop {R : Char → Char → Prop} (s : List Char) (n : Nat)
    (h : List.Chain' R s) : List.Chain' R (s.drop n) := by
  have hsplit : List.Chain' R (s.take n ++ s.drop n) := by
    rw [List.take_append_drop]
    exact h
  exact (List.chain'_append.mp hsplit).2.1

lemma dotsPat_decomp (s : List Char) (p : Nat)
    (h : strFind s dotsPat = some p) :
    s.get? p = some bslash ∧ s.get? (p + 1) = some '.' ∧
    s.get? (p + 2) = some '.' ∧ s.get? (p + 3) = some bslash := by
  have hst := strFind_some_starts s dotsPat p h
  obtain ⟨t, ht⟩ := (startsWith_iff_append dotsPat (s.drop p)).mp hst
  have hg : ∀ k, s.get? (p + k) = (s.drop p).get? k :=
    fun k => (List.get?_drop s p k).symm
  have hg0 : s.get? p = (s.drop p).get? 0 := by
    have := hg 0
    simp only [Nat.add_zero] at this
    exact this
  refine ⟨?_, ?_, ?_, ?_⟩
  · rw [hg0, ht]
    rfl
  · rw [hg 1, ht]
    rfl
  · rw [hg 2, ht]
    rfl
  · rw [hg 3, ht]
    rfl

lemma collapseStep_chain (s : List Char) (p : Nat)
    (hch : List.Chain' NoDbl s) (h : strFind s dotsPat = some p) :
    List.Chain' NoDbl (s.take (scrollBack s p) ++ s.drop (p + 3)) := by
  rw [List.chain'_append]
  refine ⟨chain_take s _ hch, chain_drop s _ hch, ?_⟩
  intro x hx y hy
  have hy' : s.get? (p + 3) = some y := by
    rw [List.get?_eq_getElem?, ← List.head?_drop]
    exact Option.mem_def.mp hy
  have hyb : y = bslash := by
    have := (dotsPat_decomp s p h).2.2.2
    rw [hy'] at this
    exact Option.some_injective _ this
  set q := scrollBack s p with hq
  cases hq0 : q with
  | zero =>
    rw [hq0] at hx
    simp at hx
  | succ q' =>
    have hqb : s.get? (q' + 1) = some bslash := by
      rcases scrollBack_exit s p with h0 | hb
      · rw [← hq, hq0] at h0
        cases h0
      · rw [← hq, hq0] at hb
        exact hb
    have hqlen : q' + 1 < s.length := (List.get?_eq_some.mp hqb).1
    have hlt : (s.take (q' + 1)).length = q' + 1 := by
      rw [List.length_take]
      exact Nat.min_eq_left (Nat.le_of_lt hqlen)
    have hxval : s.get? q' = some x := by
      rw [hq0] at hx
      rw [List.getLast?_eq_get?, hlt] at hx
      have hb1 : q' + 1 - 1 = q' := rfl
      rw [hb1] at hx
      rw [List.get?_take (Nat.lt_succ_self q')] at hx
      exact Option.mem_def.mp hx
    intro ⟨hxb, _⟩
    have hR := List.chain'_iff_get.mp hch q' (by omega)
    apply hR
    constructor
    · have hg := List.get?_eq_get (show q' < s.length by omega)
      rw [hg] at hxval
      have hxx := Option.some_injective _ hxval
      rw [hxx]
      exact hxb
    · have hg := List.get?_eq_get hqlen
      rw [hg] at hqb
      exact Option.some_injective _ hqb

lemma collapseDotsGo_chain : ∀ fuel s, List.Chain' NoDbl s →
    List.Chain' NoDbl (collapseDotsGo fuel s) := by
  intro fuel
  induction fuel with
  | zero => intro s h; exact h
  | succ fuel ih =>
    intro s h
    cases hf : strFind s dotsPat with
    | none =>
      rw [collapseDotsGo, hf]
      exact h
    | some p =>
      rw [collapseDotsGo, hf]
      exact ih _ (collapseStep_chain s p h hf)

/-! ## fixPath invariants and idempotence -/

lemma toBackslashes_no_slash (s : List Char) : '/' ∉ toBackslashes s := by
  intro hmem
  obtain ⟨x, _, hfx⟩ := List.mem_map.mp hmem
  by_cases hx : x = '/'
  · rw [if_pos hx] at hfx
    exact absurd hfx (by decide)
  · rw [if_neg hx] at hfx
    exact hx hfx

lemma toBackslashes_id (s : List Char) (h : '/' ∉ s) :
    toBackslashes s = s := by
  induction s with
  | nil => rfl
  | cons a rest ih =>
    have ha : a ≠ '/' := fun hc => h (hc ▸ List.mem_cons_self a rest)
    rw [toBackslashes, List.map_cons, if_neg ha]
    have := ih (fun hc => h (List.mem_cons_of_mem a hc))
    rw [toBackslashes] at this
    rw [this]

lemma fixPath_no_slash (s : List Char) : '/' ∉ fixPath s := by
  intro h
  rw [fixPath, collapseDots] at h
  have h1 := collapseDotsGo_mem _ _ _ h
  rw [removeDoubles] at h1
  have h2 := removeDoublesGo_mem _ _ _ h1
  exact toBackslashes_no_slash s h2

lemma fixPath_chain (s : List Char) : List.Chain' NoDbl (fixPath s) := by
  rw [fixPath, collapseDots]
  apply collapseDotsGo_chain
  rw [removeDoubles]
  rw [← strFind_dbl_none_iff_chain]
  exact removeDoublesGo_find_none _ _ (Nat.le_refl _)

lemma fixPath_find_dots_none (s : List Char) :
    strFind (fixPath s) dotsPat = none := by
  rw [fixPath, collapseDots]
  exact collapseDotsGo_find_none _ _ (Nat.le_refl _)

/-! ## Claim theorem: fixPath -/

/-- C8: `fixPath` is idempotent, and its result contains no forward
slash and no two consecutive separator (backslash) characters. -/
theorem claim8_fixPath_normalization (s : List Char) :
    fixPath (fixPath s) = fixPath s ∧
    '/' ∉ fixPath s ∧
    ∀ i, ¬((fixPath s).get? i = some bslash ∧
      (fixPath s).get? (i + 1) = some bslash) := by
  have hns := fixPath_no_slash s
  have hch := fixPath_chain s
  have hdots := fixPath_find_dots_none s
  have hdbl : strFind (fixPath s) dblPat = none :=
    (strFind_dbl_none_iff_chain _).mpr hch
  refine ⟨?_, hns, ?_⟩
  · conv_lhs => rw [fixPath]
    rw [toBackslashes_id _ hns, removeDoubles,
      removeDoublesGo_of_none _ _ hdbl, collapseDots,
      collapseDotsGo_of_none _ _ hdots]
  · intro i ⟨h1, h2⟩
    have hi1 : i + 1 < (fixPath s).length := (List.get?_eq_some.mp h2).1
    have hR := List.chain'_iff_get.mp hch i (by omega)
    apply hR
    constructor
    · have hg := List.get?_eq_get (show i < (fixPath s).length by omega)
      rw [hg] at h1
      exact Option.some_injective _ h1
    · have hg := List.get?_eq_get hi1
      rw [hg] at h2
      exact Option.some_injective _ h2

/-! ## Locating the parent-reference pattern in a structured path -/

lemma strFind_cons (c : Char) (rest pat : List Char) :
    strFind (c :: rest) pat =
      if startsWith pat (c :: rest) then some 0
      else (strFind rest pat).map (· + 1) := rfl

lemma strFind_after_segment (B C : List Char) (hBs : bslash ∉ B) :
    strFind (B ++ bslash :: '.' :: '.' :: bslash :: C) dotsPat =
      some B.length := by
  induction B with
  | nil =>
    apply (strFind_eq_some_iff _ dotsPat 0).mpr
    constructor
    · simpa using startsWith_append_self dotsPat C
    · intro q hq
      exact absurd hq (Nat.not_lt_zero q)
  | cons b B1 ih =>
    have hb : b ≠ bslash := fun hc => hBs (hc ▸ List.mem_cons_self b B1)
    have hst : startsWith dotsPat
        (b :: (B1 ++ bslash :: '.' :: '.' :: bslash :: C)) = false := by
      have : ¬(bslash = b) := fun hc => hb hc.symm
      simp [dotsPat, startsWith, this]
    rw [List.cons_append, strFind, if_neg (Bool.eq_false_iff.mp hst),
      ih (fun hc => hBs (List.mem_cons_of_mem b hc)), Option.map_some']
    simp

lemma strFind_structured (A B C : List Char) (hB : B ≠ [])
    (hBs : bslash ∉ B) (hBne : B ≠ ['.', '.'])
    (hAC : strFind (A ++ bslash :: C) dotsPat = none) :
    strFind (A ++ bslash :: (B ++ bslash :: '.' :: '.' :: bslash :: C))
        dotsPat = some (A.length + 1 + B.length) := by
  induction A with
  | nil =>
    obtain ⟨b1, B1, rfl⟩ : ∃ b1 B1, B = b1 :: B1 := by
      cases B with
      | nil => exact absurd rfl hB
      | cons x xs => exact ⟨x, xs, rfl⟩
    have hst : startsWith dotsPat
        (bslash :: ((b1 :: B1) ++ bslash :: '.' :: '.' :: bslash :: C)) =
          false := by
      by_cases hb1 : '.' = b1
      · subst hb1
        cases B1 with
        | nil =>
          simp [dotsPat, startsWith, List.cons_append]
          decide
        | cons b2 B2 =>
          by_cases hb2 : '.' = b2
          · subst hb2
            cases B2 with
            | nil => exact absurd rfl hBne
            | cons b3 B3 =>
              have hb3 : ¬(bslash = b3) := fun hc => hBs (by
                rw [hc]
                exact List.mem_cons_of_mem _ (List.mem_cons_of_mem _
                  (List.mem_cons_self b3 B3)))
              simp [dotsPat, startsWith, List.cons_append, hb3]
          · simp [dotsPat, startsWith, List.cons_append, hb2]
      · simp [dotsPat, startsWith, List.cons_append, hb1]
    rw [List.nil_append, strFind_cons, if_neg (Bool.eq_false_iff.mp hst),
      strFind_after_segment (b1 :: B1) C hBs, Option.map_some']
    simp only [List.length_cons, List.length_nil]
    congr 1
    omega
  | cons a A1 ih =>
    have hsa : startsWith dotsPat (a :: (A1 ++ bslash :: C)) = false := by
      cases hx : startsWith dotsPat (a :: (A1 ++ bslash :: C)) with
      | false => rfl
      | true =>
        rw [List.cons_append, strFind_cons, if_pos hx] at hAC
        cases hAC
    have hAC1 : strFind (A1 ++ bslash :: C) dotsPat = none := by
      rw [List.cons_append, strFind_cons,
        if_neg (Bool.eq_false_iff.mp hsa)] at hAC
      exact Option.map_eq_none'.mp hAC
    have hst : startsWith dotsPat
        (a :: (A1 ++ bslash :: (B ++ bslash :: '.' :: '.' :: bslash :: C))) =
          false := by
      cases hx : startsWith dotsPat
          (a :: (A1 ++ bslash :: (B ++ bslash :: '.' :: '.' :: bslash :: C))) with
      | false => rfl
      | true =>
        obtain ⟨t, ht⟩ := (startsWith_iff_append _ _).mp hx
        simp only [dotsPat, List.cons_append, List.nil_append] at ht
        injection ht with ha ht1
        cases A1 with
        | nil =>
          rw [List.nil_append] at ht1
          injection ht1 with hb _
          exact absurd hb (by decide)
        | cons x A2 =>
          rw [List.cons_append] at ht1
          injection ht1 with hx1 ht2
          cases A2 with
          | nil =>
            rw [List.nil_append] at ht2
            injection ht2 with hb _
            exact absurd hb (by decide)
          | cons y A3 =>
            rw [List.cons_append] at ht2
            injection ht2 with hy ht3
            cases A3 with
            | nil =>
              have heq : a :: ((x :: y :: ([] : List Char)) ++ bslash :: C) =
                  dotsPat ++ C := by
                rw [ha, hx1, hy]
                simp [dotsPat]
              rw [heq, startsWith_append_self] at hsa
              cases hsa
            | cons z A4 =>
              rw [List.cons_append] at ht3
              injection ht3 with hz _
              have heq : a :: ((x :: y :: z :: A4) ++ bslash :: C) =
                  dotsPat ++ (A4 ++ bslash :: C) := by
                rw [ha, hx1, hy, hz]
                simp [dotsPat]
              rw [heq, startsWith_append_self] at hsa
              cases hsa
    rw [List.cons_append, strFind_cons, if_neg (Bool.eq_false_iff.mp hst),
      ih hAC1, Option.map_some']
    simp only [List.length_cons]
    congr 1
    omega

lemma scrollBack_structured (A B C : List Char) (hBs : bslash ∉ B) :
    scrollBack (A ++ bslash :: (B ++ bslash :: '.' :: '.' :: bslash :: C))
      (A.length + 1 + B.length) = A.length := by
  set s := A ++ bslash :: (B ++ bslash :: '.' :: '.' :: bslash :: C) with hs
  have hp0 : ¬(A.length + 1 + B.length = 0) := by omega
  rw [scrollBack, if_neg hp0]
  have hsub : A.length + 1 + B.length - 1 = A.length + B.length := by omega
  rw [hsub]
  apply scroll_eq_of
  · exact Nat.le_add_right A.length B.length
  · intro r hr1 hr2
    have hget : s.get? r = B.get? (r - A.length - 1) := by
      rw [hs]
      rw [List.get?_append_right (by omega : A.length ≤ r)]
      have hr3 : r - A.length = (r - A.length - 1) + 1 := by omega
      rw [hr3, List.get?_cons_succ]
      rw [List.get?_append (by omega : r - A.length - 1 < B.length)]
      have hfix : r - A.length - 1 + 1 - 1 = r - A.length - 1 := by omega
      rw [hfix]
    intro hcon
    rw [hget] at hcon
    exact hBs (List.get?_mem hcon)
  · rw [hs, List.get?_append_right (Nat.le_refl A.length)]
    simp

/-! ## Claim theorems: parent-reference collapsing -/

/-- C9 counterexample: for `A = "a"`, `B = ".."`, `C = "c"` (a nonempty
separator-free middle segment) the collapsing yields `"\\c"`, not the
`A<sep>C = "a\\c"` the claim demands. -/
theorem claim9_counterexample :
    fixPath "a\\..\\..\\c".toList = "\\c".toList ∧
    fixPath "a\\..\\..\\c".toList ≠ "a\\c".toList := by
  constructor <;> decide

/-- C9 amended: for paths `A<sep>B<sep>..<sep>C` in which the segment `B`
is nonempty, separator-free and itself different from `".."`, and in
which `A<sep>C` contains no further `<sep>..<sep>` pattern, the
collapsing loop yields `A<sep>C`; and a trailing `<sep>..` at end of
string (with no other pattern present) is not collapsed. -/
theorem claim9_collapse_amended :
    (∀ A B C : List Char, B ≠ [] → bslash ∉ B → B ≠ ['.', '.'] →
      strFind (A ++ bslash :: C) dotsPat = none →
      collapseDots (A ++ bslash :: (B ++ bslash :: '.' :: '.' :: bslash :: C)) =
        A ++ bslash :: C) ∧
    (∀ A : List Char, strFind (A ++ bslash :: '.' :: '.' :: []) dotsPat = none →
      collapseDots (A ++ bslash :: '.' :: '.' :: []) =
        A ++ bslash :: '.' :: '.' :: []) := by
  constructor
  · intro A B C hB hBs hBne hAC
    have hfind := strFind_structured A B C hB hBs hBne hAC
    have hscroll := scrollBack_structured A B C hBs
    have hdrop : (A ++ bslash :: (B ++ bslash :: '.' :: '.' :: bslash :: C)).drop
        (A.length + 1 + B.length + 3) = bslash :: C := by
      have hassoc : A ++ bslash :: (B ++ bslash :: '.' :: '.' :: bslash :: C) =
          (A ++ bslash :: (B ++ [bslash, '.', '.'])) ++ bslash :: C := by
        simp
      have hlen : (A ++ bslash :: (B ++ [bslash, '.', '.'])).length =
          A.length + 1 + B.length + 3 := by
        simp [List.length_append]
        omega
      rw [hassoc, ← hlen, List.drop_left]
    cases hl : (A ++ bslash :: (B ++ bslash :: '.' :: '.' :: bslash :: C)).length
        with
    | zero =>
      exfalso
      simp [List.length_append] at hl
    | succ n =>
      rw [collapseDots, hl, collapseDotsGo, hfind]
      show collapseDotsGo n
          ((A ++ bslash :: (B ++ bslash :: '.' :: '.' :: bslash :: C)).take
            (scrollBack (A ++ bslash :: (B ++ bslash :: '.' :: '.' :: bslash :: C))
              (A.length + 1 + B.length)) ++
          (A ++ bslash :: (B ++ bslash :: '.' :: '.' :: bslash :: C)).drop
            (A.length + 1 + B.length + 3)) = A ++ bslash :: C
      rw [hscroll,
        show (A ++ bslash :: (B ++ bslash :: '.' :: '.' :: bslash :: C)).take
          A.length = A from List.take_left A _, hdrop]
      exact collapseDotsGo_of_none n _ hAC
  · intro A h
    rw [collapseDots]
    exact collapseDotsGo_of_none _ _ h

/-- Witness for both parts of the amended C9: the spec's own example
`"a\\b\\..\\c"` → `"a\\c"`, and the uncollapsed trailing `"a\\b\\.."`. -/
theorem claim9_witness :
    ("b".toList ≠ ([] : List Char) ∧ bslash ∉ "b".toList ∧
      "b".toList ≠ ['.', '.'] ∧
      strFind ("a".toList ++ bslash :: "c".toList) dotsPat = none ∧
      collapseDots ("a".toList ++ bslash ::
          ("b".toList ++ bslash :: '.' :: '.' :: bslash :: "c".toList)) =
        "a".toList ++ bslash :: "c".toList) ∧
    (strFind ("a\\b".toList ++ bslash :: '.' :: '.' :: []) dotsPat = none ∧
      collapseDots ("a\\b".toList ++ bslash :: '.' :: '.' :: []) =
        "a\\b".toList ++ bslash :: '.' :: '.' :: []) :=
  ⟨⟨by decide, by decide, by decide, by decide,
      claim9_collapse_amended.1 "a".toList "b".toList "c".toList (by decide)
        (by decide) (by decide) (by decide)⟩,
    ⟨by decide, claim9_collapse_amended.2 "a\\b".toList (by decide)⟩⟩

end PbrtConv
